import Mathlib

/-!
Shallow embedding of the core of the `telesoho/tsxq` Xiangqi assistant:
the rules engine / FEN codec (`src/renderer/src/lib/xiangqi.ts`) and the
UCI engine session (`src/main/uci-engine.test.ts`, embedded implementation).

TypeScript strings are embedded as `List Char`; a JS array indexed out of
range yields `undefined`, embedded as the default value of `getD`
(`none` for board cells).  All definitions follow the source line by line;
restructurings (splitting a single scan loop into successive passes over
the same pure data) are noted where they occur.
-/

namespace Tsxq

/-- Piece color from `xiangqi.ts`: `'w'` = red, `'b'` = black. -/
inductive PieceColor where
  | w
  | b
deriving DecidableEq, Repr

/-- Piece type from `xiangqi.ts`: king, advisor, bishop, knight, rook,
cannon, pawn. -/
inductive PieceType where
  | k
  | a
  | b
  | n
  | r
  | c
  | p
deriving DecidableEq, Repr

/-- A piece, as in `interface Piece { color; type }`. -/
structure Piece where
  color : PieceColor
  type : PieceType
deriving DecidableEq, Repr

/-- `BoardState = (Piece | null)[][]`, 10 rows of 9 columns. -/
abbrev BoardState := List (List (Option Piece))

/-- Reading `board[r][c]`; out-of-range indices give `none`
(JS `undefined`, treated as an empty cell wherever the source tests it). -/
def getP (b : BoardState) (r c : Nat) : Option Piece :=
  (b.getD r []).getD c none

/-- Writing `board[r][c] = v` (in-range). -/
def setP (b : BoardState) (r c : Nat) (v : Option Piece) : BoardState :=
  b.set r ((b.getD r []).set c v)

/-- `isRed(color)` from the source: `color === 'w'`. -/
def isRed (c : PieceColor) : Bool :=
  c = PieceColor.w

/-- The FEN letter of a piece type (the TS `PieceType` IS its lowercase
letter; this maps the embedded enum back to that letter). -/
def typeChar : PieceType → Char
  | .k => 'k'
  | .a => 'a'
  | .b => 'b'
  | .n => 'n'
  | .r => 'r'
  | .c => 'c'
  | .p => 'p'

/-- Inverse of `typeChar` on the seven piece letters; the TS source casts
the character with `as PieceType`, an unchecked cast, so any other letter
is never produced by well-formed input (we default to `k`). -/
def charType (ch : Char) : PieceType :=
  if ch = 'k' then .k
  else if ch = 'a' then .a
  else if ch = 'b' then .b
  else if ch = 'n' then .n
  else if ch = 'r' then .r
  else if ch = 'c' then .c
  else .p

/-- `generateFen` piece letter: uppercase for red, lowercase for black
(`isRed(piece.color) ? char.toUpperCase() : char.toLowerCase()`). -/
def pieceChar (p : Piece) : Char :=
  if isRed p.color then (typeChar p.type).toUpper else typeChar p.type

/-- `parseFen` cell letter decoding: `color = char === char.toUpperCase() ?
'w' : 'b'; type = char.toLowerCase()`. -/
def charPiece (ch : Char) : Piece :=
  { color := if ch.toUpper = ch then .w else .b
    type := charType ch.toLower }

/-- JS `str.split(sep)` for a one-character separator: always returns a
nonempty list, keeps empty fragments. -/
def splitOnChar (sep : Char) : List Char → List (List Char)
  | [] => [[]]
  | ch :: rest =>
    let s := splitOnChar sep rest
    if ch = sep then [] :: s
    else (ch :: s.headD []) :: s.tail

/-- The `if (r < 9) fen += '/'` joining of `generateFen`: rows joined by a
separator, none trailing. -/
def joinWith (sep : List Char) : List (List Char) → List Char
  | [] => []
  | [x] => x
  | x :: xs => x ++ sep ++ joinWith sep xs

/-- The inner character loop of `parseFen`: a digit pushes that many empty
cells, a letter pushes a piece. -/
def parseRow : List Char → List (Option Piece)
  | [] => []
  | ch :: rest =>
    if ch.isDigit then List.replicate (ch.toNat - 48) none ++ parseRow rest
    else some (charPiece ch) :: parseRow rest

/-- The inner column loop of `generateFen`, carrying the running
`emptyCount`: a piece flushes the pending count (as one digit, counts are
at most 9) then emits its letter; the row end flushes the count. -/
def genRowAux : List (Option Piece) → Nat → List Char
  | [], cnt => if cnt > 0 then [Char.ofNat (48 + cnt)] else []
  | none :: rest, cnt => genRowAux rest (cnt + 1)
  | some p :: rest, cnt =>
    (if cnt > 0 then [Char.ofNat (48 + cnt)] else []) ++ pieceChar p :: genRowAux rest 0

/-- One row of `generateFen` output (`emptyCount` starts at 0). -/
def rowFen (row : List (Option Piece)) : List Char :=
  genRowAux row 0

/-- The row as read by `generateFen`, i.e. `board[r][c]` for `c = 0..8`. -/
def readRow (b : BoardState) (r : Nat) : List (Option Piece) :=
  (List.range 9).map fun c => getP b r c

/-- The `'w'` / `'b'` character of the side to move. -/
def turnChar : PieceColor → Char
  | .w => 'w'
  | .b => 'b'

/-- `generateFen(board, turn)`: rows run-length encoded and joined with
`/`, then a space, the turn letter, and the fixed placeholder fields. -/
def generateFen (board : BoardState) (turn : PieceColor) : List Char :=
  joinWith ['/'] ((List.range 10).map fun r => rowFen (readRow board r))
    ++ ' ' :: turnChar turn :: (" - - 0 1".data)

/-- Decoding of the turn token; in TS this is the unchecked cast
`turn as PieceColor` on the `'w'` / `'b'` token. -/
def colorOfToken (t : List Char) : PieceColor :=
  if t = ['b'] then .b else .w

/-- `parseFen(fen)`: split on spaces into position and turn, split the
position on `/`, parse rows `0..9` (`rows[r]` for `r = 0..9`). -/
def parseFen (fen : List Char) : BoardState × PieceColor :=
  let parts := splitOnChar ' ' fen
  let rows := splitOnChar '/' (parts.getD 0 [])
  ((List.range 10).map fun r => parseRow (rows.getD r []),
   colorOfToken (parts.getD 1 []))

/-- `START_FEN` from the source. -/
def START_FEN : List Char :=
  "rnbakabnr/9/1c5c1/p1p1p1p1p/9/9/P1P1P1P1P/1C5C1/9/RNBAKABNR w - - 0 1".data

/-- The parsed starting board, used as concrete input in witnesses. -/
def startBoard : BoardState :=
  (parseFen START_FEN).1

/-- The distinct error messages of `validateFen`, one constructor per
string constant of the source (the Chinese/English text is kept in the
constructor's doc position). -/
inductive FenError where
  | redPawnRank
  | redPawnFile
  | blackPawnRank
  | blackPawnFile
  | redAdvisorPlace
  | blackAdvisorPlace
  | redBishopRiver
  | blackBishopRiver
  | redKingPlace
  | blackKingPlace
  | redKingMissing
  | redKingMultiple
  | blackKingMissing
  | blackKingMultiple
  | redAdvisorCount
  | blackAdvisorCount
  | redBishopCount
  | blackBishopCount
  | redKnightCount
  | blackKnightCount
  | redRookCount
  | blackRookCount
  | redCannonCount
  | blackCannonCount
  | redPawnCount
  | blackPawnCount
  | flyingGeneral
deriving DecidableEq, Repr

/-- The per-cell position checks of `validateFen`'s scan loop, in source
order (pawn rank, pawn pre-river file parity, advisor palace, bishop
river, king palace).  Returns the first error the cell triggers. -/
def posErrAt (p : Piece) (r c : Nat) : Option FenError :=
  if p.type = .p then
    if p.color = .w then
      if r > 6 then some .redPawnRank
      else if 5 ≤ r ∧ c % 2 ≠ 0 then some .redPawnFile
      else none
    else
      if r < 3 then some .blackPawnRank
      else if r ≤ 4 ∧ c % 2 ≠ 0 then some .blackPawnFile
      else none
  else if p.type = .a then
    if p.color = .w then
      if r < 7 ∨ r > 9 ∨ c < 3 ∨ c > 5 then some .redAdvisorPlace else none
    else
      if r > 2 ∨ c < 3 ∨ c > 5 then some .blackAdvisorPlace else none
  else if p.type = .b then
    if p.color = .w then
      if r < 5 then some .redBishopRiver else none
    else
      if r > 4 then some .blackBishopRiver else none
  else if p.type = .k then
    if p.color = .w then
      if r < 7 ∨ r > 9 ∨ c < 3 ∨ c > 5 then some .redKingPlace else none
    else
      if r > 2 ∨ c < 3 ∨ c > 5 then some .blackKingPlace else none
  else none

/-- The first positional error of the whole-board scan (`r = 0..9` outer,
`c = 0..8` inner: the source `return`s inside this double loop). -/
def firstPosErr (b : BoardState) : Option FenError :=
  (List.range 10).findSome? fun r =>
    (List.range 9).findSome? fun c =>
      (getP b r c).bind fun p => posErrAt p r c

/-- Count of pieces of one color and type on the board (the `counts`
accumulator of `validateFen`). -/
def countPieceBy (b : BoardState) (col : PieceColor) (ty : PieceType) : Nat :=
  ((List.range 10).flatMap fun r => (List.range 9).map fun c => getP b r c).countP
    (fun o => o = some ⟨col, ty⟩)

/-- The count checks of `validateFen`, in source order (kings first, then
the ≤2 bounds, then the ≤5 pawn bounds). -/
def countErr (b : BoardState) : Option FenError :=
  if countPieceBy b .w .k ≠ 1 then
    some (if countPieceBy b .w .k = 0 then .redKingMissing else .redKingMultiple)
  else if countPieceBy b .b .k ≠ 1 then
    some (if countPieceBy b .b .k = 0 then .blackKingMissing else .blackKingMultiple)
  else if countPieceBy b .w .a > 2 then some .redAdvisorCount
  else if countPieceBy b .b .a > 2 then some .blackAdvisorCount
  else if countPieceBy b .w .b > 2 then some .redBishopCount
  else if countPieceBy b .b .b > 2 then some .blackBishopCount
  else if countPieceBy b .w .n > 2 then some .redKnightCount
  else if countPieceBy b .b .n > 2 then some .blackKnightCount
  else if countPieceBy b .w .r > 2 then some .redRookCount
  else if countPieceBy b .b .r > 2 then some .blackRookCount
  else if countPieceBy b .w .c > 2 then some .redCannonCount
  else if countPieceBy b .b .c > 2 then some .blackCannonCount
  else if countPieceBy b .w .p > 5 then some .redPawnCount
  else if countPieceBy b .b .p > 5 then some .blackPawnCount
  else none

/-- The king position recorded by `validateFen`'s scan: the variable is
overwritten on every king found, so it holds the last one in scan order
(with exactly one king it is that king). -/
def lastKingPos (b : BoardState) (col : PieceColor) : Option (Nat × Nat) :=
  ((List.range 10).flatMap fun r => (List.range 9).map fun c => (r, c)).foldl
    (fun acc rc =>
      if getP b rc.1 rc.2 = some ⟨col, .k⟩ then some rc else acc)
    none

/-- The obstruction count `for (r = minR + 1; r < maxR)` along a column,
shared by `validateFen`'s flying-general loop and `countPiecesBetween`. -/
def obstaclesBetweenRows (b : BoardState) (col rA rB : Nat) : Nat :=
  (List.range' (min rA rB + 1) (max rA rB - (min rA rB + 1))).countP
    fun r => (getP b r col).isSome

/-- The flying-general check of `validateFen`: kings on the same column
with zero obstacles between them. -/
def flyingErr (b : BoardState) : Option FenError :=
  match lastKingPos b .w, lastKingPos b .b with
  | some rk, some bk =>
    if rk.2 = bk.2 then
      if obstaclesBetweenRows b rk.2 rk.1 bk.1 = 0 then some .flyingGeneral else none
    else none
  | _, _ => none

/-- `validateFen`'s body on the parsed board.  The source interleaves the
positional early returns, the count accumulation and the king-position
recording in one scan; over pure data this equals the first positional
error, then (scan finished) the count checks, then the flying-general
check. -/
def validateFenBoard (b : BoardState) : Option FenError :=
  match firstPosErr b with
  | some e => some e
  | none =>
    match countErr b with
    | some e => some e
    | none => flyingErr b

/-- `validateFen(fen)` (the source wraps parsing in try/catch; our
`parseFen` is total, parse failures are out of the claims' scope). -/
def validateFen (fen : List Char) : Option FenError :=
  validateFenBoard (parseFen fen).1

/-- A square `{row, col}`. -/
structure Sq where
  row : Nat
  col : Nat
deriving DecidableEq, Repr

/-- A move `{from, to}` (`from` and `to` are Lean keywords, so the fields
are `fr` and `dst`). -/
structure Move where
  fr : Sq
  dst : Sq
deriving DecidableEq, Repr

/-- The distinct error messages of `validateMove`, one constructor per
string constant of the source. -/
inductive MoveError where
  | noPiece
  | sameSquare
  | captureOwn
  | kingPalace
  | kingStep
  | advisorPalace
  | advisorStep
  | bishopRiver
  | bishopEye
  | bishopStep
  | knightStep
  | knightLeg
  | rookLine
  | rookBlocked
  | cannonLine
  | cannonScreen
  | cannonBlocked
  | pawnAfterRiver
  | pawnBeforeRiver
  | flyingGeneral
deriving DecidableEq, Repr

/-- Board read at possibly-negative (Int) indices: JS `board[-1]` is
`undefined`, embedded as `none`. -/
def getPZ (b : BoardState) (r c : Int) : Option Piece :=
  if r < 0 ∨ c < 0 then none else getP b r.toNat c.toNat

/-- `countPiecesBetween(board, from, to)`: squares strictly between two
squares on a shared row, otherwise along column `from.col`. -/
def countPiecesBetween (b : BoardState) (fr dst : Sq) : Nat :=
  if fr.row = dst.row then
    (List.range' (min fr.col dst.col + 1) (max fr.col dst.col - (min fr.col dst.col + 1))).countP
      fun c => (getP b fr.row c).isSome
  else obstaclesBetweenRows b fr.col fr.row dst.row

/-- `checkPathClear`: zero pieces strictly between. -/
def checkPathClear (b : BoardState) (fr dst : Sq) : Bool :=
  countPiecesBetween b fr dst = 0

/-- The per-type `switch` of `validateMove` (step 2): geometric rule plus
obstruction checks.  `piece` is the moving piece, `target` the occupant of
the destination. -/
def pieceRuleErr (b : BoardState) (m : Move) (piece : Piece)
    (target : Option Piece) : Option MoveError :=
  let dr : Int := (m.dst.row : Int) - (m.fr.row : Int)
  let dc : Int := (m.dst.col : Int) - (m.fr.col : Int)
  let absDr := dr.natAbs
  let absDc := dc.natAbs
  match piece.type with
  | .k =>
    if (absDr = 1 ∧ absDc = 0) ∨ (absDr = 0 ∧ absDc = 1) then
      if m.dst.col < 3 ∨ m.dst.col > 5 then some .kingPalace
      else if piece.color = .w then
        if m.dst.row < 7 ∨ m.dst.row > 9 then some .kingPalace else none
      else
        if m.dst.row > 2 then some .kingPalace else none
    else some .kingStep
  | .a =>
    if absDr = 1 ∧ absDc = 1 then
      if m.dst.col < 3 ∨ m.dst.col > 5 then some .advisorPalace
      else if piece.color = .w then
        if m.dst.row < 7 ∨ m.dst.row > 9 then some .advisorPalace else none
      else
        if m.dst.row > 2 then some .advisorPalace else none
    else some .advisorStep
  | .b =>
    if absDr = 2 ∧ absDc = 2 then
      if piece.color = .w ∧ m.dst.row < 5 then some .bishopRiver
      else if piece.color = .b ∧ m.dst.row > 4 then some .bishopRiver
      else if (getPZ b ((m.fr.row : Int) + dr / 2) ((m.fr.col : Int) + dc / 2)).isSome then
        some .bishopEye
      else none
    else some .bishopStep
  | .n =>
    if ¬((absDr = 2 ∧ absDc = 1) ∨ (absDr = 1 ∧ absDc = 2)) then some .knightStep
    else if absDr = 2 then
      if (getPZ b ((m.fr.row : Int) + (if dr > 0 then 1 else -1)) (m.fr.col : Int)).isSome then
        some .knightLeg
      else none
    else
      if (getPZ b (m.fr.row : Int) ((m.fr.col : Int) + (if dc > 0 then 1 else -1))).isSome then
        some .knightLeg
      else none
  | .r =>
    if m.fr.row ≠ m.dst.row ∧ m.fr.col ≠ m.dst.col then some .rookLine
    else if ¬checkPathClear b m.fr m.dst then some .rookBlocked
    else none
  | .c =>
    if m.fr.row ≠ m.dst.row ∧ m.fr.col ≠ m.dst.col then some .cannonLine
    else
      let between := countPiecesBetween b m.fr m.dst
      if target.isSome then
        if between ≠ 1 then some .cannonScreen else none
      else
        if between ≠ 0 then some .cannonBlocked else none
  | .p =>
    let forward : Int := if piece.color = .w then -1 else 1
    let crossed := if piece.color = .w then m.fr.row ≤ 4 else m.fr.row ≥ 5
    if crossed then
      if ¬(dr = forward ∧ dc = 0) ∧ ¬(dr = 0 ∧ absDc = 1) then some .pawnAfterRiver
      else none
    else
      if dr ≠ forward ∨ dc ≠ 0 then some .pawnBeforeRiver else none

/-- The scratch board of `validateMove` step 3: the source copies the
board (`board.map(row => [...row])`), writes the moving piece to the
destination and clears the source square. -/
def simulateMove (b : BoardState) (m : Move) : BoardState :=
  setP (setP b m.dst.row m.dst.col (getP b m.fr.row m.fr.col)) m.fr.row m.fr.col none

/-- The inner column loop of `isFlyingGeneral`'s palace scan: the first
king of the given color among columns 3..5 of row `r` (the `break` leaves
the inner loop only). -/
def kingColInRow (b : BoardState) (col : PieceColor) (r : Nat) : Option Nat :=
  [3, 4, 5].find? fun c => getP b r c = some ⟨col, .k⟩

/-- The palace scan of `isFlyingGeneral`: rows scanned in order, each row
with a king overwriting the result (the source `break` only exits the
column loop). -/
def palaceScan (b : BoardState) (col : PieceColor) (rows : List Nat) :
    Option (Nat × Nat) :=
  rows.foldl
    (fun acc r =>
      match kingColInRow b col r with
      | some c => some (r, c)
      | none => acc)
    none

/-- `isFlyingGeneral(board)`: kings located by scanning only the two
palace zones; facing iff same column with zero pieces between. -/
def isFlyingGeneral (b : BoardState) : Bool :=
  match palaceScan b .w [7, 8, 9], palaceScan b .b [0, 1, 2] with
  | some rk, some bk =>
    rk.2 = bk.2 ∧ countPiecesBetween b ⟨rk.1, rk.2⟩ ⟨bk.1, bk.2⟩ = 0
  | _, _ => false

/-- `validateMove(board, move)`: basic checks, the per-type switch, then
the flying-general re-check on the simulated board. -/
def validateMove (b : BoardState) (m : Move) : Option MoveError :=
  match getP b m.fr.row m.fr.col with
  | none => some .noPiece
  | some piece =>
    if m.fr.row = m.dst.row ∧ m.fr.col = m.dst.col then some .sameSquare
    else
      let target := getP b m.dst.row m.dst.col
      if target.any (fun t => t.color = piece.color) then some .captureOwn
      else
        match pieceRuleErr b m piece target with
        | some e => some e
        | none =>
          if isFlyingGeneral (simulateMove b m) then some .flyingGeneral else none

/-- `getPieceName(type, color)` from the source. -/
def getPieceName (ty : PieceType) (col : PieceColor) : String :=
  match ty, col with
  | .k, .w => "帅"
  | .k, .b => "将"
  | .a, .w => "仕"
  | .a, .b => "士"
  | .b, .w => "相"
  | .b, .b => "象"
  | .n, _ => "马"
  | .r, _ => "车"
  | .c, _ => "炮"
  | .p, .w => "兵"
  | .p, .b => "卒"

/-- The `redCols` glyph table (column index 0 is the red `九` file). -/
def redCols : List String :=
  ["九", "八", "七", "六", "五", "四", "三", "二", "一"]

/-- The `blackCols` table (column index 0 is black's file `1`). -/
def blackCols : List String :=
  ["1", "2", "3", "4", "5", "6", "7", "8", "9"]

/-- `getColName(c, color)` from the source. -/
def getColName (c : Nat) (col : PieceColor) : String :=
  if isRed col then redCols.getD c "" else blackCols.getD c ""

/-- The ambiguity scan of `getChineseMoveNotation`: rows `0..9` other than
the source row holding a piece of the same type and color in the source
column (`p.type === piece.type && p.color === piece.color`). -/
def otherPiecesInCol (b : BoardState) (piece : Piece) (fromRow fromCol : Nat) :
    List Nat :=
  (List.range 10).filter fun r =>
    decide (r ≠ fromRow ∧ getP b r fromCol = some piece)

/-- Insertion into a sorted list, ascending. -/
def insSorted (x : Nat) : List Nat → List Nat
  | [] => [x]
  | y :: ys => if x ≤ y then x :: y :: ys else y :: insSorted x ys

/-- The numeric ascending `sort((a, b) => a - b)` of the source. -/
def sortRows (l : List Nat) : List Nat :=
  l.foldr insSorted []

/-- Index of the first occurrence (`indexOf`). -/
def idxOf (x : Nat) : List Nat → Nat
  | [] => 0
  | y :: ys => if y = x then 0 else idxOf x ys + 1

/-- The disambiguation prefix of `getChineseMoveNotation`: `前`/`后` for two
pieces on the file, `前`/`中`/`后` for three, the empty string for four or
more (the source's explicit fallback), the piece name when unambiguous. -/
def movePfx (b : BoardState) (piece : Piece) (fromRow fromCol : Nat) : String :=
  let others := otherPiecesInCol b piece fromRow fromCol
  if others.length > 0 then
    let allInCol := sortRows (others ++ [fromRow])
    if allInCol.length = 2 then
      let otherRow := others.getD 0 0
      if (if isRed piece.color then fromRow < otherRow else otherRow < fromRow) then "前"
      else "后"
    else if allInCol.length = 3 then
      let index := idxOf fromRow allInCol
      if isRed piece.color then
        if index = 0 then "前" else if index = 1 then "中" else "后"
      else
        if index = 2 then "前" else if index = 1 then "中" else "后"
    else ""
  else getPieceName piece.type piece.color

/-- The direction glyph: `平` on the same row, `进` toward the opponent
(decreasing rows for red, increasing for black), `退` otherwise. -/
def moveDir (isRedTurn : Bool) (fromRow toRow : Nat) : String :=
  if toRow = fromRow then "平"
  else if (if isRedTurn then toRow < fromRow else fromRow < toRow) then "进"
  else "退"

/-- The destination glyph: destination file for traverses and diagonal
movers, rank distance (`redCols[9 - dist]` for red, Arabic for black) for
straight movers advancing or retreating. -/
def moveDest (piece : Piece) (fromRow toRow toCol : Nat) : String :=
  let dir := moveDir (isRed piece.color) fromRow toRow
  if dir = "平" then getColName toCol piece.color
  else if piece.type ∈ [PieceType.r, .c, .p, .k] then
    let dist := max toRow fromRow - min toRow fromRow
    if isRed piece.color then redCols.getD (9 - dist) "" else toString dist
  else getColName toCol piece.color

/-- `getChineseMoveNotation(board, move)` from the source: piece glyph,
then either the disambiguation prefix replacing the source-file glyph or
the source-file glyph, then direction and destination glyphs. -/
def chineseMove (b : BoardState) (m : Move) : String :=
  match getP b m.fr.row m.fr.col with
  | none => ""
  | some piece =>
    let pieceName := getPieceName piece.type piece.color
    let fileChar := getColName m.fr.col piece.color
    let pfx := movePfx b piece m.fr.row m.fr.col
    let dir := moveDir (isRed piece.color) m.fr.row m.dst.row
    let dest := moveDest piece m.fr.row m.dst.row m.dst.col
    if pfx = "前" ∨ pfx = "后" ∨ pfx = "中" then pfx ++ pieceName ++ dir ++ dest
    else pieceName ++ fileChar ++ dir ++ dest

/-- Digit run to number, for `jsParseInt`. -/
def digitsToNat (l : List Char) : Nat :=
  l.foldl (fun a c => a * 10 + (c.toNat - 48)) 0

/-- JS `parseInt` on a token: optional minus sign, then the longest
leading digit run; `NaN` (here `none`) if there is none. -/
def jsParseInt (s : String) : Option Int :=
  match s.data with
  | '-' :: rest =>
    let ds := rest.takeWhile Char.isDigit
    if ds.isEmpty then none else some (-(Int.ofNat (digitsToNat ds)))
  | l =>
    let ds := l.takeWhile Char.isDigit
    if ds.isEmpty then none else some (Int.ofNat (digitsToNat ds))

/-- `parseInt` applied to a possibly-missing token (`parts[i + 1]` past
the end is `undefined`, and `parseInt(undefined)` is `NaN`). -/
def jsParseIntO (o : Option String) : Option Int :=
  o.bind jsParseInt

/-- The record built by `UCIEngine.parseInfo`.  The source builds a
dynamic object (`const info: any = {}`); each optional field here models
one property the parser could assign, `none` meaning the property was
never assigned.  `multipv` is the property the renderer reads
(`info.multipv` in `App.tsx`). -/
structure EngineInfo where
  depth : Option Int := none
  scoreType : Option String := none
  scoreValue : Option Int := none
  multipv : Option Int := none
  pv : Option String := none
deriving DecidableEq, Repr

/-- `UCIEngine.parseInfo(parts)`: one pass over the tokens; `depth` stores
the next token's number, `score` stores the kind token and the number
after it and skips them, `pv` joins the rest of the line and stops the
loop.  No branch assigns `multipv`. -/
def parseInfo : List String → EngineInfo → EngineInfo
  | [], info => info
  | k :: rest, info =>
    if k = "depth" then
      parseInfo rest { info with depth := jsParseIntO rest.head? }
    else if k = "score" then
      match rest with
      | [] => parseInfo [] { info with scoreType := none, scoreValue := none }
      | [v] => parseInfo [] { info with scoreType := some v, scoreValue := none }
      | v :: w :: rest2 =>
        parseInfo rest2 { info with scoreType := some v, scoreValue := jsParseInt w }
    else if k = "pv" then
      { info with pv := some (String.intercalate " " rest) }
    else parseInfo rest info

/-- The events `UCIEngine` can emit. -/
inductive EngineEvent where
  | ready
  | readyok
  | info (i : EngineInfo)
  | bestmove (mv : Option String) (ponder : Option String)
  | quit
  | crashed (code : Int)
  | error
deriving DecidableEq, Repr

/-- The mutable fields of `UCIEngine`: the process handle (here just its
presence) and the pending-line buffer. -/
structure SessionState where
  hasProc : Bool
  buffer : List Char
deriving DecidableEq, Repr

/-- The `close` handler installed by `UCIEngine.start`: it clears the
process handle and emits `quit` — unconditionally.  The returned
`Option Nat` is the delay of a restart timer the handler arms (`none`:
the source arms none; the exit code is only logged). -/
def onClose (s : SessionState) (_code : Int) :
    SessionState × List EngineEvent × Option Nat :=
  ({ s with hasProc := false }, [EngineEvent.quit], none)

/-- JS `trim` whitespace (the characters that can occur in engine output). -/
def jsWhitespace (c : Char) : Bool :=
  c = ' ' ∨ c = '\t' ∨ c = '\r' ∨ c = '\n'

/-- JS `String.prototype.trim`. -/
def jsTrim (l : List Char) : List Char :=
  ((l.dropWhile jsWhitespace).reverse.dropWhile jsWhitespace).reverse

/-- The stdout `data` handler of `UCIEngine.start`: append the chunk to
the buffer, split on newlines, keep the last (incomplete) fragment as the
new buffer, dispatch every complete line to `parseLine(line.trim())`.
Returns the new buffer and the dispatched lines. -/
def onData (buf chunk : List Char) : List Char × List (List Char) :=
  let lines := splitOnChar '\n' (buf ++ chunk)
  (lines.getLastD [], lines.dropLast.map jsTrim)

/-- One stdout event: the handler updates the buffer and appends the
newly dispatched lines to the log of all dispatched lines. -/
def chunkStep (st : List Char × List (List Char)) (ch : List Char) :
    List Char × List (List Char) :=
  let p := onData st.1 ch
  (p.1, st.2 ++ p.2)

/-- A whole sequence of stdout chunks fed through the handler, starting
from the empty buffer; accumulates the dispatched lines in order. -/
def runChunks (chunks : List (List Char)) : List Char × List (List Char) :=
  chunks.foldl chunkStep ([], [])

/-- A heap of boards: JS arrays are reference values, so mutation is
observable by every holder of the same address.  `validateMove`'s scratch
copy is modelled as an allocation at a fresh address. -/
abbrev Store := List BoardState

/-- Dereference an address. -/
def readBoard (σ : Store) (a : Nat) : BoardState :=
  σ.getD a []

/-- `boards[a][r][c] = v`: in-place cell write at an address. -/
def writeCell (σ : Store) (a r c : Nat) (v : Option Piece) : Store :=
  σ.set a (setP (readBoard σ a) r c v)

/-- `validateMove` with its heap effects explicit: all checks read the
board at address `a`; step 3 allocates the copy `board.map(row =>
[...row])` at the fresh address `σ.length` and performs its two writes
there.  Returns the result and the heap after the call. -/
def validateMoveS (σ : Store) (a : Nat) (m : Move) : Option MoveError × Store :=
  match getP (readBoard σ a) m.fr.row m.fr.col with
  | none => (some .noPiece, σ)
  | some piece =>
    if m.fr.row = m.dst.row ∧ m.fr.col = m.dst.col then (some .sameSquare, σ)
    else
      let target := getP (readBoard σ a) m.dst.row m.dst.col
      if target.any (fun t => t.color = piece.color) then (some .captureOwn, σ)
      else
        match pieceRuleErr (readBoard σ a) m piece target with
        | some e => (some e, σ)
        | none =>
          let a2 := σ.length
          let σ1 := σ ++ [readBoard σ a]
          let σ2 := writeCell σ1 a2 m.dst.row m.dst.col (some piece)
          let σ3 := writeCell σ2 a2 m.fr.row m.fr.col none
          (if isFlyingGeneral (readBoard σ3 a2) then some .flyingGeneral else none, σ3)

/-- `validateFen` with heap effects explicit: its source performs no board
write, so the heap is returned unchanged. -/
def validateFenBoardS (σ : Store) (a : Nat) : Option FenError × Store :=
  (validateFenBoard (readBoard σ a), σ)

/-- `generateFen` with heap effects explicit: read-only. -/
def generateFenS (σ : Store) (a : Nat) (turn : PieceColor) : List Char × Store :=
  (generateFen (readBoard σ a) turn, σ)

/-- `getChineseMoveNotation` with heap effects explicit: read-only. -/
def chineseMoveS (σ : Store) (a : Nat) (m : Move) : String × Store :=
  (chineseMove (readBoard σ a) m, σ)

theorem splitOnChar_ne_nil (sep : Char) (l : List Char) : splitOnChar sep l ≠ [] := by
  induction l with
  | nil => simp [splitOnChar]
  | cons ch rest ih =>
    simp only [splitOnChar]
    split <;> simp

theorem splitOnChar_cons_sep (sep : Char) (x t : List Char) (h : sep ∉ x) :
    splitOnChar sep (x ++ sep :: t) = x :: splitOnChar sep t := by
  induction x with
  | nil => simp [splitOnChar]
  | cons c x' ih =>
    have hc : c ≠ sep := fun hcs => h (by simp [hcs])
    have hx' : sep ∉ x' := fun hm => h (by simp [hm])
    rw [List.cons_append]
    simp only [splitOnChar, if_neg hc, ih hx']
    simp

theorem splitOnChar_eq_single (sep : Char) (l : List Char) (h : sep ∉ l) :
    splitOnChar sep l = [l] := by
  induction l with
  | nil => simp [splitOnChar]
  | cons c l' ih =>
    have hc : c ≠ sep := fun hcs => h (by simp [hcs])
    have hl' : sep ∉ l' := fun hm => h (by simp [hm])
    simp only [splitOnChar, if_neg hc, ih hl']
    simp

theorem splitOnChar_joinWith (sep : Char) (parts : List (List Char))
    (hne : parts ≠ []) (h : ∀ p ∈ parts, sep ∉ p) :
    splitOnChar sep (joinWith [sep] parts) = parts := by
  induction parts with
  | nil => exact absurd rfl hne
  | cons x xs ih =>
    cases xs with
    | nil => exact splitOnChar_eq_single sep x (h x (by simp))
    | cons y ys =>
      have hx : sep ∉ x := h x (by simp)
      have hrec : ∀ p ∈ y :: ys, sep ∉ p := fun p hp => h p (by simp [hp])
      have : joinWith [sep] (x :: y :: ys) = x ++ sep :: joinWith [sep] (y :: ys) := by
        simp [joinWith]
      rw [this, splitOnChar_cons_sep sep x _ hx, ih (by simp) hrec]

theorem mem_joinWith {c : Char} {sep : List Char} {parts : List (List Char)}
    (h : c ∈ joinWith sep parts) : c ∈ sep ∨ ∃ p ∈ parts, c ∈ p := by
  induction parts with
  | nil => simp [joinWith] at h
  | cons x xs ih =>
    cases xs with
    | nil =>
      simp only [joinWith] at h
      exact Or.inr ⟨x, by simp, h⟩
    | cons y ys =>
      simp only [joinWith, List.append_assoc, List.mem_append] at h
      rcases h with hx | hs | hj
      · exact Or.inr ⟨x, by simp, hx⟩
      · exact Or.inl hs
      · rcases ih hj with hc | ⟨p, hp, hcp⟩
        · exact Or.inl hc
        · exact Or.inr ⟨p, by simp [hp], hcp⟩

theorem digitChar_spec (n : Nat) (h1 : 1 ≤ n) (h2 : n ≤ 9) :
    (Char.ofNat (48 + n)).isDigit = true ∧ (Char.ofNat (48 + n)).toNat - 48 = n ∧
      Char.ofNat (48 + n) ≠ '/' ∧ Char.ofNat (48 + n) ≠ ' ' := by
  interval_cases n <;> exact ⟨by decide, by decide, by decide, by decide⟩

theorem pieceChar_spec (p : Piece) :
    (pieceChar p).isDigit = false ∧ charPiece (pieceChar p) = p ∧
      pieceChar p ≠ '/' ∧ pieceChar p ≠ ' ' := by
  obtain ⟨c, t⟩ := p
  cases c <;> cases t <;> exact ⟨by decide, by decide, by decide, by decide⟩

theorem parseRow_genRowAux (row : List (Option Piece)) :
    ∀ n : Nat, n + row.length ≤ 9 →
      parseRow (genRowAux row n) = List.replicate n none ++ row := by
  induction row with
  | nil =>
    intro n hn
    simp only [genRowAux]
    rcases Nat.eq_zero_or_pos n with h0 | hpos
    · subst h0; simp [parseRow]
    · have hn9 : n ≤ 9 := by simpa using hn
      obtain ⟨hd, hv, -, -⟩ := digitChar_spec n hpos hn9
      simp [if_pos hpos, parseRow, hd, hv]
  | cons cell rest ih =>
    intro n hn
    cases cell with
    | none =>
      have : genRowAux (none :: rest) n = genRowAux rest (n + 1) := rfl
      rw [this, ih (n + 1) (by simp only [List.length_cons] at hn; omega)]
      rw [List.replicate_succ' n none]
      simp
    | some p =>
      have hstep : genRowAux (some p :: rest) n =
          (if n > 0 then [Char.ofNat (48 + n)] else []) ++
            pieceChar p :: genRowAux rest 0 := rfl
      obtain ⟨hpd, hpc, -, -⟩ := pieceChar_spec p
      have hrest : parseRow (genRowAux rest 0) = rest := by
        have := ih 0 (by simp only [List.length_cons] at hn; omega)
        simpa using this
      rcases Nat.eq_zero_or_pos n with h0 | hpos
      · subst h0
        rw [hstep, if_neg (by omega)]
        simp only [List.nil_append, parseRow, hpd, Bool.false_eq_true, if_false,
          hpc, hrest, List.replicate]
      · have hn9 : n ≤ 9 := by simp only [List.length_cons] at hn; omega
        obtain ⟨hd, hv, -, -⟩ := digitChar_spec n hpos hn9
        rw [hstep, if_pos hpos]
        simp only [List.singleton_append, parseRow, hd, if_true, hv, hpd,
          Bool.false_eq_true, if_false, hpc, hrest]

theorem genRowAux_chars (row : List (Option Piece)) :
    ∀ n : Nat, n + row.length ≤ 9 →
      ∀ c ∈ genRowAux row n, c ≠ '/' ∧ c ≠ ' ' := by
  induction row with
  | nil =>
    intro n hn c hc
    simp only [genRowAux] at hc
    rcases Nat.eq_zero_or_pos n with h0 | hpos
    · subst h0; simp at hc
    · have hn9 : n ≤ 9 := by simpa using hn
      obtain ⟨-, -, hs, hsp⟩ := digitChar_spec n hpos hn9
      simp only [if_pos hpos, List.mem_singleton] at hc
      exact hc ▸ ⟨hs, hsp⟩
  | cons cell rest ih =>
    intro n hn c hc
    cases cell with
    | none =>
      exact ih (n + 1) (by simp only [List.length_cons] at hn; omega) c hc
    | some p =>
      have hstep : genRowAux (some p :: rest) n =
          (if n > 0 then [Char.ofNat (48 + n)] else []) ++
            pieceChar p :: genRowAux rest 0 := rfl
      rw [hstep] at hc
      simp only [List.mem_append, List.mem_cons] at hc
      obtain ⟨-, -, hps, hpsp⟩ := pieceChar_spec p
      rcases hc with hdig | hpc | hrest
      · rcases Nat.eq_zero_or_pos n with h0 | hpos
        · subst h0; simp at hdig
        · have hn9 : n ≤ 9 := by simp only [List.length_cons] at hn; omega
          obtain ⟨-, -, hs, hsp⟩ := digitChar_spec n hpos hn9
          simp only [if_pos hpos, List.mem_singleton] at hdig
          exact hdig ▸ ⟨hs, hsp⟩
      · exact hpc ▸ ⟨hps, hpsp⟩
      · exact ih 0 (by simp only [List.length_cons] at hn; omega) c hrest

theorem getD_range_map {α : Type} (f : Nat → α) (n i : Nat) (d : α) (h : i < n) :
    ((List.range n).map f).getD i d = f i := by
  have h2 : i < ((List.range n).map f).length := by simpa using h
  rw [List.getD_eq_getElem _ _ h2, List.getElem_map, List.getElem_range]

theorem range_map_getD {α : Type} (l : List α) (d : α) (n : Nat)
    (h : l.length = n) : (List.range n).map (fun i => l.getD i d) = l := by
  apply List.ext_getElem
  · simp [h]
  · intro i h1 h2
    have hi : i < n := by simpa using h1
    simp only [List.getElem_map, List.getElem_range]
    exact List.getD_eq_getElem l d h2

theorem readRow_length (b : BoardState) (r : Nat) : (readRow b r).length = 9 := by
  simp [readRow]

theorem readRow_eq (b : BoardState) (r : Nat) (h : (b.getD r []).length = 9) :
    readRow b r = b.getD r [] := by
  unfold readRow getP
  exact range_map_getD (b.getD r []) none 9 h

/-- C1.  For every 10×9 board of optional pieces and every side to move,
`parseFen (generateFen board turn)` returns the same board and the same
side: the FEN codec round-trips. -/
theorem parseFen_generateFen_roundtrip (board : BoardState) (turn : PieceColor)
    (h10 : board.length = 10) (h9 : ∀ row ∈ board, row.length = 9) :
    parseFen (generateFen board turn) = (board, turn) := by
  have hrowlen : ∀ r : Nat, r < 10 → (board.getD r []).length = 9 := by
    intro r hr
    have hmem : board.getD r [] ∈ board := by
      rw [List.getD_eq_getElem board [] (by omega)]
      exact List.getElem_mem _
    exact h9 _ hmem
  set rowsF := (List.range 10).map (fun r => rowFen (readRow board r)) with hrowsF
  have hchars : ∀ p ∈ rowsF, ∀ c ∈ p, c ≠ '/' ∧ c ≠ ' ' := by
    intro p hp c hc
    rw [hrowsF] at hp
    simp only [List.mem_map, List.mem_range] at hp
    obtain ⟨r, -, rfl⟩ := hp
    exact genRowAux_chars (readRow board r) 0 (by simp [readRow_length]) c hc
  have hpos_no_space : ' ' ∉ joinWith ['/'] rowsF := by
    intro hmem
    rcases mem_joinWith hmem with hs | ⟨p, hp, hcp⟩
    · simp at hs
    · exact (hchars p hp ' ' hcp).2 rfl
  have hpos_no_slash : ∀ p ∈ rowsF, '/' ∉ p := by
    intro p hp hmem
    exact (hchars p hp '/' hmem).1 rfl
  have hfen : generateFen board turn =
      joinWith ['/'] rowsF ++ ' ' :: turnChar turn :: (" - - 0 1".data) := rfl
  have hsplit1 : splitOnChar ' ' (generateFen board turn) =
      joinWith ['/'] rowsF :: splitOnChar ' ' (turnChar turn :: (" - - 0 1".data)) := by
    rw [hfen]
    exact splitOnChar_cons_sep ' ' _ _ hpos_no_space
  have hturnchar : turnChar turn ≠ ' ' := by cases turn <;> decide
  have hsplit2 : splitOnChar ' ' (turnChar turn :: (" - - 0 1".data)) =
      [turnChar turn] :: splitOnChar ' ' ("- - 0 1".data) := by
    have : turnChar turn :: (" - - 0 1".data) =
        [turnChar turn] ++ ' ' :: ("- - 0 1".data) := rfl
    rw [this]
    exact splitOnChar_cons_sep ' ' [turnChar turn] _
      (by simp only [List.mem_singleton]; exact fun hq => hturnchar hq.symm)
  have hsplitrows : splitOnChar '/' (joinWith ['/'] rowsF) = rowsF :=
    splitOnChar_joinWith '/' rowsF (by rw [hrowsF]; simp) hpos_no_slash
  unfold parseFen
  rw [hsplit1, hsplit2]
  simp only [List.getD_cons_zero, List.getD_cons_succ]
  rw [hsplitrows, Prod.mk.injEq]
  constructor
  · apply List.ext_getElem
    · simp [h10]
    · intro i h1 h2
      have hi : i < 10 := by simpa using h1
      simp only [List.getElem_map, List.getElem_range]
      rw [hrowsF, getD_range_map _ 10 i [] hi]
      have hprg : parseRow (rowFen (readRow board i)) = readRow board i := by
        have := parseRow_genRowAux (readRow board i) 0 (by simp [readRow_length])
        simpa [rowFen] using this
      rw [hprg, readRow_eq board i (hrowlen i hi),
        List.getD_eq_getElem board [] h2]
  · cases turn <;> rfl

/-- C1 witness: the round trip at the standard starting position. -/
theorem parseFen_generateFen_roundtrip_witness :
    startBoard.length = 10 ∧ (∀ row ∈ startBoard, row.length = 9) ∧
      parseFen (generateFen startBoard .w) = (startBoard, .w) :=
  ⟨by decide, by decide,
    parseFen_generateFen_roundtrip startBoard .w (by decide) (by decide)⟩

theorem headD_mem {α : Type} (l : List α) (d : α) (h : l ≠ []) : l.headD d ∈ l := by
  cases l with
  | nil => exact absurd rfl h
  | cons x t => simp

theorem getLastD_cons_ne {α : Type} (x : α) (l : List α) (d : α) (h : l ≠ []) :
    (x :: l).getLastD d = l.getLastD d := by
  cases l with
  | nil => exact absurd rfl h
  | cons y t =>
    rw [List.getLastD_eq_getLast?, List.getLastD_eq_getLast?, List.getLast?_cons_cons]

theorem dropLast_cons_ne {α : Type} (x : α) (l : List α) (h : l ≠ []) :
    (x :: l).dropLast = x :: l.dropLast := by
  cases l with
  | nil => exact absurd rfl h
  | cons y t => rfl

theorem getLastD_mem {α : Type} (l : List α) (d : α) (h : l ≠ []) :
    l.getLastD d ∈ l := by
  induction l with
  | nil => exact absurd rfl h
  | cons x t ih =>
    cases ht : t with
    | nil => simp [List.getLastD]
    | cons y u =>
      rw [← ht, getLastD_cons_ne x t d (by simp [ht])]
      exact List.mem_cons_of_mem x (ih (by simp [ht]))

theorem getLastD_append_ne {α : Type} (u v : List α) (d : α) (h : v ≠ []) :
    (u ++ v).getLastD d = v.getLastD d := by
  induction u with
  | nil => rfl
  | cons x t ih =>
    rw [List.cons_append, getLastD_cons_ne x (t ++ v) d (by simp [h]), ih]

theorem dropLast_append_ne {α : Type} (u v : List α) (h : v ≠ []) :
    (u ++ v).dropLast = u ++ v.dropLast := by
  induction u with
  | nil => rfl
  | cons x t ih =>
    rw [List.cons_append, dropLast_cons_ne x (t ++ v) (by simp [h]), ih]
    rfl

theorem mem_splitOnChar_no_sep (sep : Char) (l : List Char) :
    ∀ x ∈ splitOnChar sep l, sep ∉ x := by
  induction l with
  | nil =>
    intro x hx
    simp only [splitOnChar, List.mem_singleton] at hx
    simp [hx]
  | cons ch rest ih =>
    intro x hx
    simp only [splitOnChar] at hx
    by_cases hc : ch = sep
    · rw [if_pos hc] at hx
      rcases List.mem_cons.mp hx with rfl | hx'
      · simp
      · exact ih x hx'
    · rw [if_neg hc] at hx
      rcases List.mem_cons.mp hx with rfl | hx'
      · intro hmem
        rcases List.mem_cons.mp hmem with rfl | hmem'
        · exact hc rfl
        · have hne := splitOnChar_ne_nil sep rest
          exact ih _ (headD_mem _ [] hne) hmem'
      · exact ih x (List.mem_of_mem_tail hx')

theorem splitOnChar_append (sep : Char) (a b : List Char) :
    splitOnChar sep (a ++ b) =
      (splitOnChar sep a).dropLast ++
        ((splitOnChar sep a).getLastD [] ++ (splitOnChar sep b).headD []) ::
          (splitOnChar sep b).tail := by
  induction a with
  | nil =>
    cases hb : splitOnChar sep b with
    | nil => exact absurd hb (splitOnChar_ne_nil sep b)
    | cons hb0 tb => simp [splitOnChar, hb]
  | cons c a' ih =>
    have hne' : splitOnChar sep a' ≠ [] := splitOnChar_ne_nil sep a'
    by_cases hc : c = sep
    · rw [List.cons_append]
      simp only [splitOnChar, if_pos hc, ih]
      rw [dropLast_cons_ne _ _ hne', getLastD_cons_ne _ _ _ hne']
      simp
    · rw [List.cons_append]
      simp only [splitOnChar, if_neg hc]
      cases hs' : splitOnChar sep a' with
      | nil => exact absurd hs' hne'
      | cons h' t' =>
        cases ht' : t' with
        | nil =>
          have hib : splitOnChar sep (a' ++ b) =
              (h' ++ (splitOnChar sep b).headD []) :: (splitOnChar sep b).tail := by
            rw [ih, hs', ht']
            simp [List.getLastD]
          rw [hib]
          simp [List.getLastD]
        | cons u t'' =>
          have hib : splitOnChar sep (a' ++ b) =
              (h' :: (u :: t'').dropLast) ++
                ((u :: t'').getLastD [] ++ (splitOnChar sep b).headD []) ::
                  (splitOnChar sep b).tail := by
            rw [ih, hs', ht', dropLast_cons_ne h' (u :: t'') (by simp),
              getLastD_cons_ne h' (u :: t'') [] (by simp)]
          rw [hib]
          simp only [List.headD_cons, List.tail_cons, List.cons_append]
          rw [dropLast_cons_ne (c :: h') (u :: t'') (by simp),
            getLastD_cons_ne (c :: h') (u :: t'') [] (by simp)]
          simp

theorem splitOnChar_free_append (sep : Char) (a b : List Char) (h : sep ∉ a) :
    splitOnChar sep (a ++ b) =
      (a ++ (splitOnChar sep b).headD []) :: (splitOnChar sep b).tail := by
  rw [splitOnChar_append, splitOnChar_eq_single sep a h]
  simp [List.getLastD]

theorem onData_buffer_no_sep (buf chunk : List Char) :
    '\n' ∉ (onData buf chunk).1 := by
  unfold onData
  have hne := splitOnChar_ne_nil '\n' (buf ++ chunk)
  exact mem_splitOnChar_no_sep '\n' (buf ++ chunk) _ (getLastD_mem _ [] hne)

theorem runChunks_fold (chunks : List (List Char)) :
    ∀ (buf : List Char) (out : List (List Char)), '\n' ∉ buf →
      chunks.foldl chunkStep (buf, out) =
        ((splitOnChar '\n' (buf ++ chunks.flatten)).getLastD [],
         out ++ ((splitOnChar '\n' (buf ++ chunks.flatten)).dropLast).map jsTrim) := by
  induction chunks with
  | nil =>
    intro buf out hbuf
    rw [List.foldl_nil, List.flatten_nil, List.append_nil,
      splitOnChar_eq_single '\n' buf hbuf]
    simp [List.getLastD_eq_getLast?]
  | cons ch rest ih =>
    intro buf out hbuf
    have hsne : splitOnChar '\n' (buf ++ ch) ≠ [] := splitOnChar_ne_nil '\n' (buf ++ ch)
    have hbuf' : '\n' ∉ (splitOnChar '\n' (buf ++ ch)).getLastD [] :=
      mem_splitOnChar_no_sep '\n' (buf ++ ch) _ (getLastD_mem _ [] hsne)
    have happ : chunkStep (buf, out) ch =
        ((splitOnChar '\n' (buf ++ ch)).getLastD [],
         out ++ ((splitOnChar '\n' (buf ++ ch)).dropLast).map jsTrim) := by
      simp [chunkStep, onData]
    rw [List.foldl_cons, happ, ih _ _ hbuf']
    have hbsplit := splitOnChar_free_append '\n'
      ((splitOnChar '\n' (buf ++ ch)).getLastD []) rest.flatten hbuf'
    have hasplit : splitOnChar '\n' ((buf ++ ch) ++ rest.flatten) =
        (splitOnChar '\n' (buf ++ ch)).dropLast ++
          splitOnChar '\n' ((splitOnChar '\n' (buf ++ ch)).getLastD [] ++ rest.flatten) := by
      rw [splitOnChar_append, hbsplit]
    have hbne : splitOnChar '\n'
        ((splitOnChar '\n' (buf ++ ch)).getLastD [] ++ rest.flatten) ≠ [] :=
      splitOnChar_ne_nil '\n' _
    have hjoin : buf ++ (ch :: rest).flatten = (buf ++ ch) ++ rest.flatten := by
      rw [List.flatten_cons, ← List.append_assoc]
    rw [hjoin, hasplit, getLastD_append_ne _ _ _ hbne, dropLast_append_ne _ _ hbne,
      List.map_append, List.append_assoc]

/-- C5.  Feeding any sequence of stdout chunks through the data handler
dispatches, in order, exactly the trimmed complete newline-terminated
lines of the concatenated stream, and retains the trailing partial line
in the buffer; both depend only on the concatenation of the chunks, so
the dispatched lines are independent of how the stream is cut. -/
theorem stdout_chunking (chunks : List (List Char)) :
    (runChunks chunks).2 =
        ((splitOnChar '\n' chunks.flatten).dropLast).map jsTrim ∧
      (runChunks chunks).1 = (splitOnChar '\n' chunks.flatten).getLastD [] := by
  unfold runChunks
  rw [runChunks_fold chunks [] [] (by simp)]
  simp

/-- C2.  Evaluation of the `close` handler at an unexpected exit (engine
killed, exit code 1, `quit()` never called): the source clears the handle
and emits only `quit` — it emits no `crashed` event and arms no restart
timer, contradicting the claim and the repository's own tests
(`should restart automatically on crash`). -/
theorem onClose_no_crashed_no_restart :
    onClose { hasProc := true, buffer := [] } 1 =
      ({ hasProc := false, buffer := [] }, [EngineEvent.quit], none) ∧
      EngineEvent.crashed 1 ∉ (onClose { hasProc := true, buffer := [] } 1).2.1 ∧
      (onClose { hasProc := true, buffer := [] } 1).2.2 = none :=
  ⟨rfl, by decide, rfl⟩

/-- C4.  Evaluation of `parseInfo` at an `info` line carrying a `multipv`
key: `depth`, `score` and `pv` are parsed (`pv` taking the rest of the
line), but the `multipv` rank is never assigned — the record's `multipv`
property stays absent, contradicting the claim (and leaving the
renderer's `info.multipv` consumer dead). -/
theorem parseInfo_drops_multipv :
    parseInfo ["depth", "12", "multipv", "2", "score", "cp", "30", "pv", "h2e2", "a9a8"] {} =
      { depth := some 12, scoreType := some "cp", scoreValue := some 30,
        multipv := none, pv := some "h2e2 a9a8" } := by
  rfl

theorem findSome?_isSome_of_mem {α β : Type} (l : List α) (f : α → Option β)
    (x : α) (hx : x ∈ l) (hf : (f x).isSome) : (l.findSome? f).isSome := by
  induction l with
  | nil => simp at hx
  | cons a t ih =>
    rw [List.findSome?_cons]
    cases hfa : f a with
    | some v => simp
    | none =>
      rcases List.mem_cons.mp hx with rfl | hx'
      · rw [hfa] at hf; simp at hf
      · exact ih hx'

theorem firstPosErr_isSome (b : BoardState) (r c : Nat) (hr : r < 10) (hc : c < 9)
    (p : Piece) (hp : getP b r c = some p) (hcell : (posErrAt p r c).isSome) :
    (firstPosErr b).isSome := by
  unfold firstPosErr
  apply findSome?_isSome_of_mem _ _ r (by simp [hr])
  apply findSome?_isSome_of_mem _ _ c (by simp [hc])
  rw [hp]
  simpa using hcell

theorem validateFenBoard_invalid_of_posErr (b : BoardState)
    (h : (firstPosErr b).isSome) : validateFenBoard b ≠ none := by
  unfold validateFenBoard
  cases hf : firstPosErr b with
  | none => rw [hf] at h; simp at h
  | some e => simp

/-- C7.  The pawn geometry of `validateFen`: a red pawn behind row 6 or a
black pawn before row 3 triggers the color-naming pawn-rank rejection; a
red pawn on rows 5–6 or a black pawn on rows 3–4 on an odd column
triggers the pre-river file-parity rejection; a pawn across the river
(red at row ≤ 4, black at row ≥ 5) passes the pawn checks on any column. -/
theorem validateFen_pawn_geometry :
    ∀ (b : BoardState) (r c : Nat), r < 10 → c < 9 →
      (getP b r c = some ⟨.w, .p⟩ →
        (6 < r →
          posErrAt ⟨.w, .p⟩ r c = some FenError.redPawnRank ∧ validateFenBoard b ≠ none) ∧
        (5 ≤ r → r ≤ 6 → c % 2 = 1 →
          posErrAt ⟨.w, .p⟩ r c = some FenError.redPawnFile ∧ validateFenBoard b ≠ none) ∧
        (r ≤ 4 → posErrAt ⟨.w, .p⟩ r c = none)) ∧
      (getP b r c = some ⟨.b, .p⟩ →
        (r < 3 →
          posErrAt ⟨.b, .p⟩ r c = some FenError.blackPawnRank ∧ validateFenBoard b ≠ none) ∧
        (3 ≤ r → r ≤ 4 → c % 2 = 1 →
          posErrAt ⟨.b, .p⟩ r c = some FenError.blackPawnFile ∧ validateFenBoard b ≠ none) ∧
        (5 ≤ r → posErrAt ⟨.b, .p⟩ r c = none)) := by
  intro b r c hr hc
  constructor
  · intro hp
    refine ⟨fun h6 => ⟨?_, ?_⟩, fun h5 h6 hodd => ⟨?_, ?_⟩, fun h4 => ?_⟩
    · simp [posErrAt, if_pos h6]
    · refine validateFenBoard_invalid_of_posErr b
        (firstPosErr_isSome b r c hr hc _ hp ?_)
      simp [posErrAt, if_pos h6]
    · have hn6 : ¬6 < r := by omega
      simp [posErrAt, if_neg hn6, h5, hodd]
    · refine validateFenBoard_invalid_of_posErr b
        (firstPosErr_isSome b r c hr hc _ hp ?_)
      have hn6 : ¬6 < r := by omega
      simp [posErrAt, if_neg hn6, h5, hodd]
    · have hn6 : ¬6 < r := by omega
      have hn5 : ¬5 ≤ r := by omega
      simp [posErrAt, if_neg hn6, hn5]
  · intro hp
    refine ⟨fun h3 => ⟨?_, ?_⟩, fun h3 h4 hodd => ⟨?_, ?_⟩, fun h5 => ?_⟩
    · simp [posErrAt, if_pos h3]
    · refine validateFenBoard_invalid_of_posErr b
        (firstPosErr_isSome b r c hr hc _ hp ?_)
      simp [posErrAt, if_pos h3]
    · have hn3 : ¬r < 3 := by omega
      simp [posErrAt, if_neg hn3, h4, hodd]
    · refine validateFenBoard_invalid_of_posErr b
        (firstPosErr_isSome b r c hr hc _ hp ?_)
      have hn3 : ¬r < 3 := by omega
      simp [posErrAt, if_neg hn3, h4, hodd]
    · have hn3 : ¬r < 3 := by omega
      have hn4 : ¬r ≤ 4 := by omega
      simp [posErrAt, if_neg hn3, hn4]

/-- C7 witness: a red pawn at row 8 column 0 (with both kings present) is
rejected, and the per-cell check names the red pawn rank reason. -/
theorem validateFen_pawn_geometry_witness :
    posErrAt ⟨.w, .p⟩ 8 0 = some FenError.redPawnRank ∧
      validateFenBoard (parseFen "4k4/9/9/9/9/9/9/9/P8/4K4 w - - 0 1".data).1 ≠ none :=
  (validateFen_pawn_geometry (parseFen "4k4/9/9/9/9/9/9/9/P8/4K4 w - - 0 1".data).1
      8 0 (by decide) (by decide)).1 (by decide) |>.1 (by decide)

/-- C8.  King cardinality in `validateFen`: any board whose red or black
king count differs from one is rejected; when the positional scan finds
no earlier error, the reported reason names the missing side (zero kings)
or the multiple-kings side (two or more), red checked before black. -/
theorem validateFen_king_cardinality :
    ∀ b : BoardState,
      ((countPieceBy b .w .k ≠ 1 ∨ countPieceBy b .b .k ≠ 1) →
        validateFenBoard b ≠ none) ∧
      (firstPosErr b = none →
        (countPieceBy b .w .k = 0 →
          validateFenBoard b = some FenError.redKingMissing) ∧
        (2 ≤ countPieceBy b .w .k →
          validateFenBoard b = some FenError.redKingMultiple) ∧
        (countPieceBy b .w .k = 1 → countPieceBy b .b .k = 0 →
          validateFenBoard b = some FenError.blackKingMissing) ∧
        (countPieceBy b .w .k = 1 → 2 ≤ countPieceBy b .b .k →
          validateFenBoard b = some FenError.blackKingMultiple)) := by
  intro b
  constructor
  · intro hne
    unfold validateFenBoard
    cases hf : firstPosErr b with
    | some e => simp
    | none =>
      rcases hne with hw | hb
      · unfold countErr
        rw [if_pos hw]
        simp
      · unfold countErr
        by_cases hw : countPieceBy b .w .k ≠ 1
        · rw [if_pos hw]; simp
        · rw [if_neg hw, if_pos hb]; simp
  · intro hf
    unfold validateFenBoard
    rw [hf]
    refine ⟨fun h0 => ?_, fun h2 => ?_, fun h1 h0 => ?_, fun h1 h2 => ?_⟩
    · unfold countErr
      rw [if_pos (by omega), if_pos h0]
    · unfold countErr
      rw [if_pos (by omega), if_neg (by omega)]
    · unfold countErr
      rw [if_neg (by omega), if_pos (by omega), if_pos h0]
    · unfold countErr
      rw [if_neg (by omega), if_pos (by omega), if_neg (by omega)]

/-- C8 witness: a board with no red king is rejected naming the missing
red king; one with two black kings is rejected as multiple black kings. -/
theorem validateFen_king_cardinality_witness :
    validateFenBoard (parseFen "4k4/9/9/9/9/9/9/9/9/9 w - - 0 1".data).1 =
        some FenError.redKingMissing ∧
      validateFenBoard (parseFen "4k4/9/3k5/9/9/9/9/9/9/4K4 w - - 0 1".data).1 =
        some FenError.blackKingMultiple :=
  ⟨((validateFen_king_cardinality (parseFen "4k4/9/9/9/9/9/9/9/9/9 w - - 0 1".data).1).2
      (by decide)).1 (by decide),
   (((validateFen_king_cardinality
        (parseFen "4k4/9/3k5/9/9/9/9/9/9/4K4 w - - 0 1".data).1).2
      (by decide)).2.2.2) (by decide) (by decide)⟩

/-- C6.  The cannon rule of `validateMove`: on a straight move to a
square not held by a friendly piece, the move is accepted exactly when
the count of pieces strictly between source and destination is one for a
capture and zero for a plain slide — and the flying-general post-check on
the simulated board passes; a capture with a wrong screen count is
rejected with the screen reason, a blocked slide with the blocked-path
reason. -/
theorem validateMove_cannon (b : BoardState) (m : Move) (q : PieceColor)
    (hp : getP b m.fr.row m.fr.col = some ⟨q, .c⟩)
    (hne : ¬(m.fr.row = m.dst.row ∧ m.fr.col = m.dst.col))
    (hline : m.fr.row = m.dst.row ∨ m.fr.col = m.dst.col)
    (hown : ¬(getP b m.dst.row m.dst.col).any (fun t => t.color = q)) :
    (validateMove b m = none ↔
      countPiecesBetween b m.fr m.dst =
          (if (getP b m.dst.row m.dst.col).isSome then 1 else 0) ∧
        isFlyingGeneral (simulateMove b m) = false) ∧
    ((getP b m.dst.row m.dst.col).isSome →
      countPiecesBetween b m.fr m.dst ≠ 1 →
      validateMove b m = some MoveError.cannonScreen) ∧
    (getP b m.dst.row m.dst.col = none →
      countPiecesBetween b m.fr m.dst ≠ 0 →
      validateMove b m = some MoveError.cannonBlocked) := by
  have hnline : ¬(m.fr.row ≠ m.dst.row ∧ m.fr.col ≠ m.dst.col) := by tauto
  have hvm : validateMove b m =
      match pieceRuleErr b m ⟨q, .c⟩ (getP b m.dst.row m.dst.col) with
      | some e => some e
      | none =>
        if isFlyingGeneral (simulateMove b m) then some .flyingGeneral else none := by
    simp only [validateMove, hp, if_neg hne, if_neg hown]
  have hrule : pieceRuleErr b m ⟨q, .c⟩ (getP b m.dst.row m.dst.col) =
      if (getP b m.dst.row m.dst.col).isSome then
        (if countPiecesBetween b m.fr m.dst ≠ 1 then some .cannonScreen else none)
      else
        (if countPiecesBetween b m.fr m.dst ≠ 0 then some .cannonBlocked else none) := by
    simp only [pieceRuleErr, if_neg hnline]
  refine ⟨?_, fun ht hc => ?_, fun ht hc => ?_⟩
  · constructor
    · intro hv
      rw [hvm, hrule] at hv
      by_cases ht : (getP b m.dst.row m.dst.col).isSome
      · rw [if_pos ht] at hv ⊢
        by_cases hc : countPiecesBetween b m.fr m.dst = 1
        · rw [if_neg (by omega)] at hv
          refine ⟨hc, ?_⟩
          by_cases hf : isFlyingGeneral (simulateMove b m)
          · rw [if_pos hf] at hv; cases hv
          · simpa using hf
        · rw [if_pos hc] at hv; cases hv
      · rw [if_neg ht] at hv
        rw [if_neg ht]
        by_cases hc : countPiecesBetween b m.fr m.dst = 0
        · rw [if_neg (by omega)] at hv
          refine ⟨hc, ?_⟩
          by_cases hf : isFlyingGeneral (simulateMove b m)
          · rw [if_pos hf] at hv; cases hv
          · simpa using hf
        · rw [if_pos hc] at hv; cases hv
    · rintro ⟨hcount, hfg⟩
      rw [hvm, hrule]
      by_cases ht : (getP b m.dst.row m.dst.col).isSome
      · rw [if_pos ht] at hcount
        rw [if_pos ht, if_neg (by omega)]
        simp [hfg]
      · rw [if_neg ht] at hcount
        rw [if_neg ht, if_neg (by omega)]
        simp [hfg]
  · rw [hvm, hrule, if_pos ht, if_pos hc]
  · rw [hvm, hrule, if_neg (by simp [ht]), if_pos hc]

/-- C6 witness: from the starting position, the red cannon capturing the
black knight up its file over the single black-cannon screen is legal;
the same cannon sliding onto the square just short of it (one piece in
between, no capture) is rejected as blocked. -/
theorem validateMove_cannon_witness :
    validateMove startBoard ⟨⟨7, 1⟩, ⟨0, 1⟩⟩ = none ∧
      validateMove startBoard ⟨⟨7, 1⟩, ⟨1, 1⟩⟩ = some MoveError.cannonBlocked :=
  ⟨((validateMove_cannon startBoard ⟨⟨7, 1⟩, ⟨0, 1⟩⟩ .w (by decide) (by decide)
      (by decide) (by decide)).1).mpr ⟨by decide, by decide⟩,
   (validateMove_cannon startBoard ⟨⟨7, 1⟩, ⟨1, 1⟩⟩ .w (by decide) (by decide)
      (by decide) (by decide)).2.2 (by decide) (by decide)⟩

theorem kingColInRow_none (nb : BoardState) (col : PieceColor) (r : Nat)
    (h : ∀ c ∈ [3, 4, 5], getP nb r c ≠ some ⟨col, .k⟩) :
    kingColInRow nb col r = none := by
  unfold kingColInRow
  rw [List.find?_eq_none]
  intro c hc
  simpa using h c hc

theorem kingColInRow_some (nb : BoardState) (col : PieceColor) (r kc : Nat)
    (hk : getP nb r kc = some ⟨col, .k⟩)
    (huniqc : ∀ c ∈ [3, 4, 5], getP nb r c = some ⟨col, .k⟩ → c = kc)
    (hkc3 : 3 ≤ kc) (hkc5 : kc ≤ 5) :
    kingColInRow nb col r = some kc := by
  unfold kingColInRow
  have hcase : kc = 3 ∨ kc = 4 ∨ kc = 5 := by omega
  rcases hcase with rfl | rfl | rfl
  · rw [List.find?_cons_of_pos _ (by simpa using hk)]
  · have h3 : getP nb r 3 ≠ some ⟨col, .k⟩ := fun hh => by
      have := huniqc 3 (by simp) hh; omega
    rw [List.find?_cons_of_neg _ (by simpa using h3),
      List.find?_cons_of_pos _ (by simpa using hk)]
  · have h3 : getP nb r 3 ≠ some ⟨col, .k⟩ := fun hh => by
      have := huniqc 3 (by simp) hh; omega
    have h4 : getP nb r 4 ≠ some ⟨col, .k⟩ := fun hh => by
      have := huniqc 4 (by simp) hh; omega
    rw [List.find?_cons_of_neg _ (by simpa using h3),
      List.find?_cons_of_neg _ (by simpa using h4),
      List.find?_cons_of_pos _ (by simpa using hk)]

theorem palaceScan_acc_no_king (nb : BoardState) (col : PieceColor)
    (rows : List Nat) (hnone : ∀ r ∈ rows, kingColInRow nb col r = none) :
    ∀ acc : Option (Nat × Nat),
      rows.foldl
        (fun acc r =>
          match kingColInRow nb col r with
          | some c => some (r, c)
          | none => acc)
        acc = acc := by
  induction rows with
  | nil => intro acc; rfl
  | cons r rest ih =>
    intro acc
    rw [List.foldl_cons, hnone r (by simp)]
    exact ih (fun x hx => hnone x (by simp [hx])) acc

theorem palaceScan_unique (nb : BoardState) (col : PieceColor)
    (rows : List Nat) (kr kc : Nat) (hmem : kr ∈ rows)
    (hothers : ∀ r ∈ rows, r ≠ kr → kingColInRow nb col r = none)
    (hkr : kingColInRow nb col kr = some kc) :
    palaceScan nb col rows = some (kr, kc) := by
  unfold palaceScan
  suffices hgen : ∀ acc : Option (Nat × Nat), kr ∈ rows →
      rows.foldl
        (fun acc r =>
          match kingColInRow nb col r with
          | some c => some (r, c)
          | none => acc)
        acc = some (kr, kc) from hgen none hmem
  clear hmem
  induction rows with
  | nil => intro acc hmem; simp at hmem
  | cons r rest ih =>
    intro acc hmem
    by_cases hr : r = kr
    · subst hr
      rw [List.foldl_cons, hkr]
      by_cases hrest : r ∈ rest
      · exact ih (fun x hx => hothers x (by simp [hx])) _ hrest
      · exact palaceScan_acc_no_king nb col rest
          (fun x hx => hothers x (by simp [hx])
            (fun hxk => hrest (hxk ▸ hx))) _
    · have hmem' : kr ∈ rest := by
        rcases List.mem_cons.mp hmem with h | h
        · exact absurd h.symm hr
        · exact h
      rw [List.foldl_cons, hothers r (by simp) hr]
      exact ih (fun x hx => hothers x (by simp [hx])) _ hmem'

/-- C3 counterexample.  A board whose red king stands at (6,4), outside
its palace: the red rook's quiet move from (9,0) to (8,0) passes the
piece rule, and in the resulting position the two kings (the only kings,
at (6,4) and (0,4)) share column 4 with zero pieces between them — yet
`validateMove` accepts the move, because its flying-general re-check
looks for kings only inside the two palace zones. -/
theorem validateMove_flying_palace_miss :
    pieceRuleErr (parseFen "4k4/9/9/9/9/9/4K4/9/9/R8 w - - 0 1".data).1
        ⟨⟨9, 0⟩, ⟨8, 0⟩⟩ ⟨.w, .r⟩
        (getP (parseFen "4k4/9/9/9/9/9/4K4/9/9/R8 w - - 0 1".data).1 8 0) = none ∧
      getP (simulateMove (parseFen "4k4/9/9/9/9/9/4K4/9/9/R8 w - - 0 1".data).1
          ⟨⟨9, 0⟩, ⟨8, 0⟩⟩) 6 4 = some ⟨.w, .k⟩ ∧
      getP (simulateMove (parseFen "4k4/9/9/9/9/9/4K4/9/9/R8 w - - 0 1".data).1
          ⟨⟨9, 0⟩, ⟨8, 0⟩⟩) 0 4 = some ⟨.b, .k⟩ ∧
      (∀ r ∈ List.range 10, ∀ c ∈ List.range 9,
        getP (simulateMove (parseFen "4k4/9/9/9/9/9/4K4/9/9/R8 w - - 0 1".data).1
            ⟨⟨9, 0⟩, ⟨8, 0⟩⟩) r c = some ⟨.w, .k⟩ → r = 6 ∧ c = 4) ∧
      (∀ r ∈ List.range 10, ∀ c ∈ List.range 9,
        getP (simulateMove (parseFen "4k4/9/9/9/9/9/4K4/9/9/R8 w - - 0 1".data).1
            ⟨⟨9, 0⟩, ⟨8, 0⟩⟩) r c = some ⟨.b, .k⟩ → r = 0 ∧ c = 4) ∧
      obstaclesBetweenRows (simulateMove
          (parseFen "4k4/9/9/9/9/9/4K4/9/9/R8 w - - 0 1".data).1
          ⟨⟨9, 0⟩, ⟨8, 0⟩⟩) 4 0 6 = 0 ∧
      validateMove (parseFen "4k4/9/9/9/9/9/4K4/9/9/R8 w - - 0 1".data).1
        ⟨⟨9, 0⟩, ⟨8, 0⟩⟩ = none := by
  refine ⟨by decide, by decide, by decide, by decide, by decide, by decide, by decide⟩

/-- C3 (amended).  When each side's unique king stands inside its own
palace — which is where `isFlyingGeneral` looks for kings, and the only
configuration `validateFen` lets through — the flying-general logic is as
claimed, symmetric over both kings.  For `validateMove` (a move that
passed the basic and piece-specific checks): it returns the
flying-general rejection exactly when the two kings of the simulated
board share a column with zero pieces strictly between, and accepts the
move exactly otherwise.  For `validateFen` (no positional or count error,
king positions as recorded by its scan): it rejects with the
flying-general reason exactly when the kings share a column with zero
obstacles between, and accepts exactly otherwise. -/
theorem flyingGeneral_condition :
    (∀ (b : BoardState) (m : Move) (piece : Piece) (rk bk : Sq),
      getP b m.fr.row m.fr.col = some piece →
      ¬(m.fr.row = m.dst.row ∧ m.fr.col = m.dst.col) →
      ¬(getP b m.dst.row m.dst.col).any (fun t => t.color = piece.color) →
      pieceRuleErr b m piece (getP b m.dst.row m.dst.col) = none →
      getP (simulateMove b m) rk.row rk.col = some ⟨.w, .k⟩ →
      7 ≤ rk.row → rk.row ≤ 9 → 3 ≤ rk.col → rk.col ≤ 5 →
      (∀ r ∈ List.range 10, ∀ c ∈ List.range 9,
        getP (simulateMove b m) r c = some ⟨.w, .k⟩ → r = rk.row ∧ c = rk.col) →
      getP (simulateMove b m) bk.row bk.col = some ⟨.b, .k⟩ →
      bk.row ≤ 2 → 3 ≤ bk.col → bk.col ≤ 5 →
      (∀ r ∈ List.range 10, ∀ c ∈ List.range 9,
        getP (simulateMove b m) r c = some ⟨.b, .k⟩ → r = bk.row ∧ c = bk.col) →
      (validateMove b m = some MoveError.flyingGeneral ↔
        rk.col = bk.col ∧ countPiecesBetween (simulateMove b m) rk bk = 0) ∧
      (validateMove b m = none ↔
        ¬(rk.col = bk.col ∧ countPiecesBetween (simulateMove b m) rk bk = 0))) ∧
    (∀ (b2 : BoardState) (rk2 bk2 : Nat × Nat),
      firstPosErr b2 = none → countErr b2 = none →
      lastKingPos b2 .w = some rk2 → lastKingPos b2 .b = some bk2 →
      (validateFenBoard b2 = some FenError.flyingGeneral ↔
        rk2.2 = bk2.2 ∧ obstaclesBetweenRows b2 rk2.2 rk2.1 bk2.1 = 0) ∧
      (validateFenBoard b2 = none ↔
        ¬(rk2.2 = bk2.2 ∧ obstaclesBetweenRows b2 rk2.2 rk2.1 bk2.1 = 0))) := by
  constructor
  · intro b m piece rk bk hp hne hown hrule hrk hr7 hr9 hc3 hc5 hrku hbk hb2 hbc3 hbc5 hbku
    have hvm : validateMove b m =
        if isFlyingGeneral (simulateMove b m) then some .flyingGeneral else none := by
      simp only [validateMove, hp, if_neg hne, if_neg hown, hrule]
    have hscanR : palaceScan (simulateMove b m) .w [7, 8, 9] = some (rk.row, rk.col) := by
      apply palaceScan_unique _ _ _ rk.row rk.col (by simp; omega)
      · intro r hr hner
        apply kingColInRow_none
        intro c hcm hk
        have hr10 : r ∈ List.range 10 := by simp at hr ⊢; omega
        have hc9 : c ∈ List.range 9 := by simp at hcm ⊢; omega
        exact hner (hrku r hr10 c hc9 hk).1
      · apply kingColInRow_some _ _ _ _ hrk _ hc3 hc5
        intro c hcm hk
        have hr10 : rk.row ∈ List.range 10 := by simp; omega
        have hc9 : c ∈ List.range 9 := by simp at hcm ⊢; omega
        exact (hrku rk.row hr10 c hc9 hk).2
    have hscanB : palaceScan (simulateMove b m) .b [0, 1, 2] = some (bk.row, bk.col) := by
      apply palaceScan_unique _ _ _ bk.row bk.col (by simp; omega)
      · intro r hr hner
        apply kingColInRow_none
        intro c hcm hk
        have hr10 : r ∈ List.range 10 := by simp at hr ⊢; omega
        have hc9 : c ∈ List.range 9 := by simp at hcm ⊢; omega
        exact hner (hbku r hr10 c hc9 hk).1
      · apply kingColInRow_some _ _ _ _ hbk _ hbc3 hbc5
        intro c hcm hk
        have hr10 : bk.row ∈ List.range 10 := by simp; omega
        have hc9 : c ∈ List.range 9 := by simp at hcm ⊢; omega
        exact (hbku bk.row hr10 c hc9 hk).2
    have hfg : isFlyingGeneral (simulateMove b m) =
        decide (rk.col = bk.col ∧
          countPiecesBetween (simulateMove b m) rk bk = 0) := by
      simp only [isFlyingGeneral, hscanR, hscanB]
    by_cases hcond : rk.col = bk.col ∧ countPiecesBetween (simulateMove b m) rk bk = 0
    · rw [hvm, hfg]
      simp [hcond]
    · rw [hvm, hfg]
      simp [hcond]
  · intro b2 rk2 bk2 hf hc hlw hlb
    have hvf : validateFenBoard b2 = flyingErr b2 := by
      unfold validateFenBoard
      rw [hf, hc]
    have hfe : flyingErr b2 =
        (if rk2.2 = bk2.2 then
          if obstaclesBetweenRows b2 rk2.2 rk2.1 bk2.1 = 0 then
            some FenError.flyingGeneral
          else none
        else none) := by
      simp only [flyingErr, hlw, hlb]
    rw [hvf, hfe]
    by_cases hcol : rk2.2 = bk2.2
    · by_cases hobs : obstaclesBetweenRows b2 rk2.2 rk2.1 bk2.1 = 0
      · rw [if_pos hcol, if_pos hobs]
        exact ⟨⟨fun _ => ⟨hcol, hobs⟩, fun _ => rfl⟩,
          ⟨fun h => Option.noConfusion h, fun hn => (hn ⟨hcol, hobs⟩).elim⟩⟩
      · rw [if_pos hcol, if_neg hobs]
        exact ⟨⟨fun h => Option.noConfusion h, fun hcc => absurd hcc.2 hobs⟩,
          ⟨fun _ hcc => hobs hcc.2, fun _ => rfl⟩⟩
    · rw [if_neg hcol]
      exact ⟨⟨fun h => Option.noConfusion h, fun hcc => absurd hcc.1 hcol⟩,
        ⟨fun _ hcc => hcol hcc.1, fun _ => rfl⟩⟩

/-- C3 witness: in a position with both kings in their palaces on column
4 and a red rook at (5,4) screening them, moving that rook away to (5,0)
is rejected as flying general by `validateMove`, and the same bare-kings
configuration (kings on column 4, nothing between) is rejected by the
position validator while restoring one obstacle is accepted. -/
theorem flyingGeneral_condition_witness :
    validateMove (parseFen "4k4/9/9/9/9/4R4/9/9/9/4K4 w - - 0 1".data).1
        ⟨⟨5, 4⟩, ⟨5, 0⟩⟩ = some MoveError.flyingGeneral ∧
      validateFenBoard (parseFen "4k4/9/9/9/9/9/9/9/9/4K4 w - - 0 1".data).1 =
        some FenError.flyingGeneral ∧
      validateFenBoard (parseFen "4k4/9/9/9/9/4R4/9/9/9/4K4 w - - 0 1".data).1 = none :=
  ⟨((flyingGeneral_condition.1 (parseFen "4k4/9/9/9/9/4R4/9/9/9/4K4 w - - 0 1".data).1
        ⟨⟨5, 4⟩, ⟨5, 0⟩⟩ ⟨.w, .r⟩ ⟨9, 4⟩ ⟨0, 4⟩ (by decide) (by decide) (by decide)
        (by decide) (by decide) (by decide) (by decide) (by decide) (by decide)
        (by decide) (by decide) (by decide) (by decide) (by decide) (by decide)).1).mpr
      ⟨by decide, by decide⟩,
   ((flyingGeneral_condition.2 (parseFen "4k4/9/9/9/9/9/9/9/9/4K4 w - - 0 1".data).1
        (9, 4) (0, 4) (by decide) (by decide) (by decide) (by decide)).1).mpr
      ⟨by decide, by decide⟩,
   ((flyingGeneral_condition.2 (parseFen "4k4/9/9/9/9/4R4/9/9/9/4K4 w - - 0 1".data).1
        (9, 4) (0, 4) (by decide) (by decide) (by decide) (by decide)).2).mpr
      (by decide)⟩

theorem readBoard_writeCell_ne (σ : Store) (a2 a r c : Nat) (v : Option Piece)
    (h : a ≠ a2) : readBoard (writeCell σ a2 r c v) a = readBoard σ a := by
  unfold readBoard writeCell
  rw [List.getD_eq_getElem?_getD, List.getD_eq_getElem?_getD,
    List.getElem?_set_ne (fun he => h he.symm)]

theorem readBoard_append_lt (σ : Store) (x : BoardState) (a : Nat)
    (h : a < σ.length) : readBoard (σ ++ [x]) a = readBoard σ a := by
  unfold readBoard
  exact List.getD_append σ [x] [] a h

theorem readBoard_append_self (σ : Store) (x : BoardState) :
    readBoard (σ ++ [x]) σ.length = x := by
  unfold readBoard
  rw [List.getD_eq_getElem?_getD]
  simp

theorem readBoard_writeCell_self (σ : Store) (a r c : Nat) (v : Option Piece)
    (h : a < σ.length) :
    readBoard (writeCell σ a r c v) a = setP (readBoard σ a) r c v := by
  unfold readBoard writeCell
  rw [List.getD_eq_getElem?_getD, List.getElem?_set_eq_of_lt _ h]
  rfl

/-- C10.  The rules engine and move codec never mutate the board they are
handed: over an explicit heap of boards, `validateMove` leaves the board
at the caller's address untouched — its two writes go only to the fresh
scratch copy it allocates (which afterwards holds exactly the simulated
position), and its verdict agrees with the pure function of the input
board — while `validateFen`, `generateFen` and the Chinese-move encoder
perform no write at all. -/
theorem rules_engine_frame :
    ∀ (σ : Store) (a : Nat) (m : Move) (turn : PieceColor), a < σ.length →
      readBoard (validateMoveS σ a m).2 a = readBoard σ a ∧
      (validateMoveS σ a m).1 = validateMove (readBoard σ a) m ∧
      (validateFenBoardS σ a).2 = σ ∧
      (generateFenS σ a turn).2 = σ ∧
      (chineseMoveS σ a m).2 = σ := by
  intro σ a m turn ha
  have hkey : readBoard (validateMoveS σ a m).2 a = readBoard σ a ∧
      (validateMoveS σ a m).1 = validateMove (readBoard σ a) m := by
    cases hp : getP (readBoard σ a) m.fr.row m.fr.col with
    | none =>
      have e1 : validateMoveS σ a m = (some .noPiece, σ) := by
        simp only [validateMoveS, hp]
      have e2 : validateMove (readBoard σ a) m = some .noPiece := by
        simp only [validateMove, hp]
      rw [e1, e2]
      exact ⟨rfl, rfl⟩
    | some piece =>
      by_cases hsq : m.fr.row = m.dst.row ∧ m.fr.col = m.dst.col
      · have e1 : validateMoveS σ a m = (some .sameSquare, σ) := by
          simp only [validateMoveS, hp, if_pos hsq]
        have e2 : validateMove (readBoard σ a) m = some .sameSquare := by
          simp only [validateMove, hp, if_pos hsq]
        rw [e1, e2]
        exact ⟨rfl, rfl⟩
      · by_cases hown : (getP (readBoard σ a) m.dst.row m.dst.col).any
            (fun t => t.color = piece.color)
        · have e1 : validateMoveS σ a m = (some .captureOwn, σ) := by
            simp only [validateMoveS, hp, if_neg hsq, if_pos hown]
          have e2 : validateMove (readBoard σ a) m = some .captureOwn := by
            simp only [validateMove, hp, if_neg hsq, if_pos hown]
          rw [e1, e2]
          exact ⟨rfl, rfl⟩
        · cases hrule : pieceRuleErr (readBoard σ a) m piece
              (getP (readBoard σ a) m.dst.row m.dst.col) with
          | some e =>
            have e1 : validateMoveS σ a m = (some e, σ) := by
              simp only [validateMoveS, hp, if_neg hsq, if_neg hown, hrule]
            have e2 : validateMove (readBoard σ a) m = some e := by
              simp only [validateMove, hp, if_neg hsq, if_neg hown, hrule]
            rw [e1, e2]
            exact ⟨rfl, rfl⟩
          | none =>
            have e1 : validateMoveS σ a m =
                (if isFlyingGeneral (readBoard
                    (writeCell (writeCell (σ ++ [readBoard σ a]) σ.length
                      m.dst.row m.dst.col (some piece)) σ.length
                      m.fr.row m.fr.col none) σ.length)
                  then some .flyingGeneral else none,
                 writeCell (writeCell (σ ++ [readBoard σ a]) σ.length
                   m.dst.row m.dst.col (some piece)) σ.length
                   m.fr.row m.fr.col none) := by
              simp only [validateMoveS, hp, if_neg hsq, if_neg hown, hrule]
            have e2 : validateMove (readBoard σ a) m =
                if isFlyingGeneral (simulateMove (readBoard σ a) m)
                  then some .flyingGeneral else none := by
              simp only [validateMove, hp, if_neg hsq, if_neg hown, hrule]
            have hane : a ≠ σ.length := by omega
            have hcopy : readBoard (σ ++ [readBoard σ a]) σ.length = readBoard σ a :=
              readBoard_append_self σ _
            have hself1 : readBoard (writeCell (σ ++ [readBoard σ a]) σ.length
                m.dst.row m.dst.col (some piece)) σ.length =
                setP (readBoard σ a) m.dst.row m.dst.col (some piece) := by
              rw [readBoard_writeCell_self _ _ _ _ _ (by simp), hcopy]
            have hself2 : readBoard (writeCell (writeCell (σ ++ [readBoard σ a])
                σ.length m.dst.row m.dst.col (some piece)) σ.length
                m.fr.row m.fr.col none) σ.length =
                simulateMove (readBoard σ a) m := by
              rw [readBoard_writeCell_self _ _ _ _ _ (by unfold writeCell; simp),
                hself1]
              unfold simulateMove
              rw [hp]
            constructor
            · rw [e1]
              show readBoard (writeCell (writeCell (σ ++ [readBoard σ a]) σ.length
                m.dst.row m.dst.col (some piece)) σ.length
                m.fr.row m.fr.col none) a = readBoard σ a
              rw [readBoard_writeCell_ne _ _ _ _ _ _ hane,
                readBoard_writeCell_ne _ _ _ _ _ _ hane,
                readBoard_append_lt _ _ _ ha]
            · rw [e1, e2]
              show (if isFlyingGeneral (readBoard _ σ.length)
                  then some MoveError.flyingGeneral else none) = _
              rw [hself2]
  exact ⟨hkey.1, hkey.2, rfl, rfl, rfl⟩

/-- C10 witness: at a one-board heap holding the starting position, the
cannon move leaves the stored board unchanged and the heap verdict equals
the pure one. -/
theorem rules_engine_frame_witness :
    readBoard (validateMoveS [startBoard] 0 ⟨⟨7, 1⟩, ⟨4, 1⟩⟩).2 0 =
        readBoard [startBoard] 0 ∧
      (validateMoveS [startBoard] 0 ⟨⟨7, 1⟩, ⟨4, 1⟩⟩).1 =
        validateMove (readBoard [startBoard] 0) ⟨⟨7, 1⟩, ⟨4, 1⟩⟩ :=
  ⟨(rules_engine_frame [startBoard] 0 ⟨⟨7, 1⟩, ⟨4, 1⟩⟩ .w (by decide)).1,
   (rules_engine_frame [startBoard] 0 ⟨⟨7, 1⟩, ⟨4, 1⟩⟩ .w (by decide)).2.1⟩

theorem insSorted_le (x y : Nat) (ys : List Nat) (h : x ≤ y) :
    insSorted x (y :: ys) = x :: y :: ys := by
  conv_lhs => unfold insSorted
  rw [if_pos h]

theorem insSorted_gt (x y : Nat) (ys : List Nat) (h : ¬x ≤ y) :
    insSorted x (y :: ys) = y :: insSorted x ys := by
  conv_lhs => unfold insSorted
  rw [if_neg h]

theorem length_insSorted (x : Nat) (l : List Nat) :
    (insSorted x l).length = l.length + 1 := by
  induction l with
  | nil => rfl
  | cons y ys ih =>
    by_cases h : x ≤ y
    · rw [insSorted_le x y ys h]
      simp
    · rw [insSorted_gt x y ys h]
      simp [ih]

theorem length_sortRows (l : List Nat) : (sortRows l).length = l.length := by
  induction l with
  | nil => rfl
  | cons x xs ih =>
    show (insSorted x (sortRows xs)).length = xs.length + 1
    rw [length_insSorted, ih]

theorem otherPieces_ne (b : BoardState) (piece : Piece) (fromRow fromCol r : Nat)
    (h : r ∈ otherPiecesInCol b piece fromRow fromCol) : r ≠ fromRow := by
  unfold otherPiecesInCol at h
  have hm := (List.mem_filter.mp h).2
  simp only [decide_eq_true_eq] at hm
  exact hm.1

theorem otherPieces_pairwise (b : BoardState) (piece : Piece) (fromRow fromCol : Nat) :
    (otherPiecesInCol b piece fromRow fromCol).Pairwise (· < ·) :=
  List.Pairwise.filter _ (List.pairwise_lt_range 10)

/-- C9.  The front/middle/rear disambiguation of the Chinese move
encoder.  With exactly one other same-type, same-color piece on the
source file, the piece nearer to the opponent (smaller row for red,
larger for black) is prefixed `前` and the other `后`, the source-file
glyph being dropped; with two others, the nearest gets `前`, the middle
`中`, the farthest `后`; with three or more others (four-plus pieces on
the file) the prefix is dropped and the output falls back to piece name
plus source-file glyph. -/
theorem chineseMove_disambiguation (b : BoardState) (m : Move) (piece : Piece)
    (hp : getP b m.fr.row m.fr.col = some piece) :
    (∀ r1 : Nat, otherPiecesInCol b piece m.fr.row m.fr.col = [r1] →
      chineseMove b m =
        (if (if isRed piece.color then m.fr.row < r1 else r1 < m.fr.row)
          then "前" else "后") ++
          getPieceName piece.type piece.color ++
          moveDir (isRed piece.color) m.fr.row m.dst.row ++
          moveDest piece m.fr.row m.dst.row m.dst.col) ∧
    (∀ r1 r2 : Nat, otherPiecesInCol b piece m.fr.row m.fr.col = [r1, r2] →
      chineseMove b m =
        (if (if isRed piece.color then m.fr.row < r1 ∧ m.fr.row < r2
              else r1 < m.fr.row ∧ r2 < m.fr.row) then "前"
         else if (if isRed piece.color then r1 < m.fr.row ∧ r2 < m.fr.row
              else m.fr.row < r1 ∧ m.fr.row < r2) then "后"
         else "中") ++
          getPieceName piece.type piece.color ++
          moveDir (isRed piece.color) m.fr.row m.dst.row ++
          moveDest piece m.fr.row m.dst.row m.dst.col) ∧
    (3 ≤ (otherPiecesInCol b piece m.fr.row m.fr.col).length →
      chineseMove b m =
        getPieceName piece.type piece.color ++
          getColName m.fr.col piece.color ++
          moveDir (isRed piece.color) m.fr.row m.dst.row ++
          moveDest piece m.fr.row m.dst.row m.dst.col) := by
  refine ⟨fun r1 h1 => ?_, fun r1 r2 h12 => ?_, fun h3 => ?_⟩
  · -- two pieces on the file
    have hpfx : movePfx b piece m.fr.row m.fr.col =
        if (if isRed piece.color then m.fr.row < r1 else r1 < m.fr.row)
          then "前" else "后" := by
      simp only [movePfx, h1, List.singleton_append, List.length_cons,
        List.length_nil, length_sortRows, List.getD_cons_zero]
      norm_num
    simp only [chineseMove, hp, hpfx]
    by_cases hf : (if isRed piece.color then m.fr.row < r1 else r1 < m.fr.row)
    · rw [if_pos hf, if_pos (by decide)]
    · rw [if_neg hf, if_pos (by decide)]
  · -- three pieces on the file
    have h1f : r1 ≠ m.fr.row := otherPieces_ne b piece _ _ r1 (by rw [h12]; simp)
    have h2f : r2 ≠ m.fr.row := otherPieces_ne b piece _ _ r2 (by rw [h12]; simp)
    have h12lt : r1 < r2 := by
      have hpw := otherPieces_pairwise b piece m.fr.row m.fr.col
      rw [h12] at hpw
      simpa using (List.pairwise_cons.mp hpw).1 r2 (by simp)
    have hpfx : movePfx b piece m.fr.row m.fr.col =
        (if (if isRed piece.color then m.fr.row < r1 ∧ m.fr.row < r2
              else r1 < m.fr.row ∧ r2 < m.fr.row) then "前"
         else if (if isRed piece.color then r1 < m.fr.row ∧ r2 < m.fr.row
              else m.fr.row < r1 ∧ m.fr.row < r2) then "后"
         else "中") := by
      simp only [movePfx, h12, List.cons_append, List.singleton_append,
        List.length_cons, List.length_nil, length_sortRows]
      norm_num
      have htri : m.fr.row < r1 ∨ (r1 < m.fr.row ∧ m.fr.row < r2) ∨
          r2 < m.fr.row := by omega
      rcases htri with hA | ⟨hB1, hB2⟩ | hC
      · have hsort : sortRows [r1, r2, m.fr.row] = [m.fr.row, r1, r2] := by
          show insSorted r1 (insSorted r2 (insSorted m.fr.row [])) = _
          rw [show insSorted m.fr.row [] = [m.fr.row] from rfl,
            insSorted_gt r2 m.fr.row [] (by omega),
            show insSorted r2 [] = [r2] from rfl,
            insSorted_gt r1 m.fr.row [r2] (by omega),
            insSorted_le r1 r2 [] (by omega)]
        have hidx : idxOf m.fr.row [m.fr.row, r1, r2] = 0 := by
          simp [idxOf]
        simp only [hsort, hidx]
        cases hpc : piece.color <;>
          simp [isRed, hA, show m.fr.row < r2 from by omega,
            show ¬r1 < m.fr.row from by omega, show ¬r2 < m.fr.row from by omega]
      · have hsort : sortRows [r1, r2, m.fr.row] = [r1, m.fr.row, r2] := by
          show insSorted r1 (insSorted r2 (insSorted m.fr.row [])) = _
          rw [show insSorted m.fr.row [] = [m.fr.row] from rfl,
            insSorted_gt r2 m.fr.row [] (by omega),
            show insSorted r2 [] = [r2] from rfl,
            insSorted_le r1 m.fr.row [r2] (by omega)]
        have hidx : idxOf m.fr.row [r1, m.fr.row, r2] = 1 := by
          simp [idxOf, h1f]
        simp only [hsort, hidx]
        cases hpc : piece.color <;>
          simp [isRed, hB1, hB2, show ¬m.fr.row < r1 from by omega,
            show ¬r2 < m.fr.row from by omega]
      · have hsort : sortRows [r1, r2, m.fr.row] = [r1, r2, m.fr.row] := by
          show insSorted r1 (insSorted r2 (insSorted m.fr.row [])) = _
          rw [show insSorted m.fr.row [] = [m.fr.row] from rfl,
            insSorted_le r2 m.fr.row [] (by omega),
            insSorted_le r1 r2 [m.fr.row] (by omega)]
        have hidx : idxOf m.fr.row [r1, r2, m.fr.row] = 2 := by
          simp [idxOf, h1f, h2f]
        simp only [hsort, hidx]
        cases hpc : piece.color <;>
          simp [isRed, hC, show r1 < m.fr.row from by omega,
            show ¬m.fr.row < r1 from by omega, show ¬m.fr.row < r2 from by omega]
    simp only [chineseMove, hp, hpfx]
    by_cases hf : (if isRed piece.color then m.fr.row < r1 ∧ m.fr.row < r2
        else r1 < m.fr.row ∧ r2 < m.fr.row)
    · rw [if_pos hf, if_pos (by decide)]
    · rw [if_neg hf]
      by_cases hrear : (if isRed piece.color then r1 < m.fr.row ∧ r2 < m.fr.row
          else m.fr.row < r1 ∧ m.fr.row < r2)
      · rw [if_pos hrear, if_pos (by decide)]
      · rw [if_neg hrear, if_pos (by decide)]
  · -- four or more pieces on the file: empty prefix, fall back to the
    -- piece-name-plus-source-file form
    have hpfx : movePfx b piece m.fr.row m.fr.col = "" := by
      simp only [movePfx, length_sortRows, List.length_append, List.length_cons,
        List.length_nil]
      rw [if_pos (by omega), if_neg (by omega), if_neg (by omega)]
    simp only [chineseMove, hp, hpfx]
    rw [if_neg (by decide)]

/-- C9 witness: two red rooks stacked on the leftmost file; the front
rook's sideways move is notated with the `前` prefix and no source-file
glyph. -/
theorem chineseMove_disambiguation_witness :
    chineseMove (parseFen "4k4/9/9/9/9/9/9/9/R8/R3K4 w - - 0 1".data).1
        ⟨⟨8, 0⟩, ⟨8, 4⟩⟩ = "前车平五" :=
  ((chineseMove_disambiguation (parseFen "4k4/9/9/9/9/9/9/9/R8/R3K4 w - - 0 1".data).1
      ⟨⟨8, 0⟩, ⟨8, 4⟩⟩ ⟨.w, .r⟩ (by decide)).1 9 (by decide)).trans (by decide)

end Tsxq
